import Mathlib

/-!
Verification of the declarative fixture engine of `src/factory/base.py`:
sequence counters and counter sharing, parameter dependency checking,
option resolution, argument preparation and strategy dispatch.

Python integers are modelled as `Int`, Python dicts as insertion-ordered
association lists with unique keys, Python sets as `Finset`.
-/

namespace FactoryBoy

/-- Shallow embedding of class `_Counter` (src/factory/base.py, lines 547-564):
a simple, naive counter; `seq` holds the next value to hand out. -/
structure Counter where
  seq : Int
deriving DecidableEq, Repr

/-- `_Counter.next`: return the current `seq`, then increase it by one. -/
def Counter.next (c : Counter) : Int × Counter :=
  (c.seq, ⟨c.seq + 1⟩)

/-- `_Counter.reset`: set the next value to hand out. -/
def Counter.reset (_c : Counter) (next_value : Int) : Counter :=
  ⟨next_value⟩

/-- Run `n` consecutive `next()` calls on a counter, collecting the returned
values in call order together with the final counter state. -/
def runNexts : Nat → Counter → List Int × Counter
  | 0, c => ([], c)
  | n + 1, c =>
    ((c.next).1 :: (runNexts n (c.next).2).1, (runNexts n (c.next).2).2)

theorem runNexts_outputs (n : Nat) (c : Counter) :
    (runNexts n c).1 = List.map (fun k : Nat => c.seq + (k : Int)) (List.range n) := by
  induction n generalizing c with
  | zero => simp [runNexts]
  | succ n ih =>
    have h := ih ⟨c.seq + 1⟩
    have hc : (runNexts (n + 1) c).1 = c.seq :: (runNexts n ⟨c.seq + 1⟩).1 := rfl
    rw [hc, h, List.range_succ_eq_map, List.map_cons, List.map_map]
    congr 1
    · simp
    · apply List.map_congr_left
      intro a _
      simp only [Function.comp_apply]
      push_cast
      ring

theorem runNexts_pairwise (n : Nat) (c : Counter) :
    List.Pairwise (fun a b => a < b) (runNexts n c).1 := by
  rw [runNexts_outputs, List.pairwise_map]
  exact (List.pairwise_lt_range n).imp (fun h => by omega)

/-- C1: every `next()` on a counter returns a value strictly greater than every
value previously returned from the same counter (values in a run with no reset
are pairwise strictly increasing, in call order); a run of `n` consecutive
calls starting from initial value `c.seq` (default 0 via
`_setup_next_sequence`) returns exactly the consecutive integers
`c.seq, c.seq + 1, ...`; and after `reset(v)` the next call returns exactly
`v`.  `FactoryOptions.next_sequence` (lines 423-432) delegates to
`_Counter.next` on the shared counter after initialization. -/
theorem next_sequence_monotone_consecutive_reset (n : Nat) (c : Counter) (v : Int) :
    List.Pairwise (fun a b => a < b) (runNexts n c).1 ∧
    (runNexts n c).1 = List.map (fun k : Nat => c.seq + (k : Int)) (List.range n) ∧
    ((Counter.reset c v).next).1 = v :=
  ⟨runNexts_pairwise n c, runNexts_outputs n c, rfl⟩

/-! ### Counter reference resolution (`FactoryOptions._get_counter_reference`) -/

/-- A small model of Python classes for `Meta.model` targets: `dog`
specializes `animal`; `animal` and `rock` are unrelated; `obj` is Python's
root class `object`. -/
inductive PyClass
  | obj
  | animal
  | dog
  | rock
deriving DecidableEq, Repr

/-- The ancestor list (the class itself first) of each class in the model
hierarchy, mirroring Python's method resolution order. -/
def PyClass.ancestors : PyClass → List PyClass
  | .obj => [.obj]
  | .animal => [.animal, .obj]
  | .dog => [.dog, .animal, .obj]
  | .rock => [.rock, .obj]

/-- Python's built-in `issubclass`: reflexive-transitive ancestry
(`issubclass(C, C)` is true for every class `C`). -/
def PyClass.issubclass (c d : PyClass) : Bool :=
  d ∈ c.ancestors

/-- The fields of a base factory's `_meta` that counter-reference resolution
reads: its `model` and its already-resolved `counter_reference`, the latter
given as a factory identifier. -/
structure BaseMetaInfo where
  model : Option PyClass
  counter_reference : Nat
deriving DecidableEq, Repr

/-- `FactoryOptions._get_counter_reference` (src/factory/base.py, lines
397-406): the definition shares its base's counter reference when it has a
model, a base factory, the base has a model, and `issubclass(model,
base.model)` holds; in every other case the definition is its own
reference (`selfId`). -/
def get_counter_reference (selfId : Nat) (model : Option PyClass)
    (base : Option BaseMetaInfo) : Nat :=
  match model, base with
  | some m, some b =>
    match b.model with
    | some bm => if m.issubclass bm then b.counter_reference else selfId
    | none => selfId
  | _, _ => selfId

/-- C2 counterexample: a definition whose model *equals* its base's model
(here `animal` = `animal`, not a proper subtype) still takes the base's
counter reference (0), not its own (1): Python's `issubclass` is
reflexive, so "strict specialization" is not what the code tests. -/
theorem counter_reference_equal_models_share :
    get_counter_reference 1 (some .animal) (some ⟨some .animal, 0⟩) = 0 ∧
    PyClass.animal = PyClass.animal := by
  constructor
  · rfl
  · rfl

/-- C2 (amended): a definition's counter reference is the base's counter
reference exactly when the definition's model is a (possibly equal)
subtype of the base's model in the `issubclass` sense; with no base, no
model on either side, or an unrelated model type, the definition is its
own counter reference. -/
theorem counter_reference_shares_iff_issubclass (selfId : Nat) (m : PyClass)
    (b : BaseMetaInfo) (bm : PyClass) (model : Option PyClass)
    (base : Option BaseMetaInfo) (hbm : b.model = some bm)
    (hne : b.counter_reference ≠ selfId) :
    (get_counter_reference selfId (some m) (some b) = b.counter_reference ↔
      m.issubclass bm = true) ∧
    (bm.issubclass bm = true) ∧
    (model = none → get_counter_reference selfId model base = selfId) ∧
    (base = none → get_counter_reference selfId model base = selfId) ∧
    (∀ b', base = some b' → b'.model = none →
      get_counter_reference selfId model base = selfId) := by
  refine ⟨?_, ?_, ?_, ?_, ?_⟩
  · by_cases h : m.issubclass bm
    · simp [get_counter_reference, hbm, h]
    · simp [get_counter_reference, hbm, h]
      exact fun heq => absurd heq.symm hne
  · simp [PyClass.issubclass]
    cases bm <;> simp [PyClass.ancestors]
  · intro h
    subst h
    cases base <;> rfl
  · intro h
    subst h
    cases model <;> rfl
  · intro b' hbase hbm'
    subst hbase
    cases model with
    | none => rfl
    | some m' => simp [get_counter_reference, hbm']

/-- Witness for C2's amended theorem at concrete inputs. -/
theorem counter_reference_shares_iff_issubclass_witness :
    ((get_counter_reference 1 (some .dog) (some ⟨some .animal, 0⟩) =
        (⟨some .animal, 0⟩ : BaseMetaInfo).counter_reference ↔
      PyClass.dog.issubclass .animal = true) ∧
    (PyClass.animal.issubclass .animal = true) ∧
    ((none : Option PyClass) = none → get_counter_reference 1 none none = 1) ∧
    ((none : Option BaseMetaInfo) = none → get_counter_reference 1 none none = 1) ∧
    (∀ b', (none : Option BaseMetaInfo) = some b' → b'.model = none →
      get_counter_reference 1 none none = 1)) :=
  counter_reference_shares_iff_issubclass 1 .dog ⟨some .animal, 0⟩ .animal
    none none rfl (by decide)

/-! ### Sequence reset (`FactoryOptions.reset_sequence`) -/

/-- `FactoryOptions.reset_sequence` (src/factory/base.py, lines 434-444),
entered after `_initialize_counter`: raise a `ValueError` when the
counter reference is another definition and `force` is not set; otherwise
reset the counter, using the owner's `_setup_next_sequence()` result when
`value` is `None`.  `selfName` and `ownerName` stand for the rendering of
`self.factory` and `self.counter_reference.factory` in the message. -/
def reset_sequence (selfName ownerName : String) (counterRefIsSelf : Bool)
    (c : Counter) (value : Option Int) (setup_next_sequence : Int)
    (force : Bool) : Except String Counter :=
  if !counterRefIsSelf && !force then
    .error (("Can't reset a sequence on descendant factory " ++ selfName ++
      "; reset sequence on ") ++ (ownerName ++ " or use force=True."))
  else
    .ok (c.reset (value.getD setup_next_sequence))

/-- C6: `reset_sequence` fails with an ownership error whose message names
the owning definition exactly when the counter reference is another
definition and `force` is false; when called on the owning definition, or
with `force` set, it succeeds — returning exactly the counter reset to
the requested value, so that the next `next()` call returns that value. -/
theorem reset_sequence_ownership (sn ow : String) (refSelf force : Bool)
    (c : Counter) (v s : Int) :
    ((∃ e, reset_sequence sn ow refSelf c (some v) s force = .error e ∧
        ∃ pre post, e = pre ++ (ow ++ post)) ↔
      refSelf = false ∧ force = false) ∧
    (refSelf = true ∨ force = true →
      reset_sequence sn ow refSelf c (some v) s force = .ok (c.reset v) ∧
      ((c.reset v).next).1 = v) ∧
    (∀ c', reset_sequence sn ow refSelf c (some v) s force = .ok c' →
      (c'.next).1 = v) := by
  refine ⟨⟨?_, ?_⟩, ?_, ?_⟩
  · intro ⟨e, he, _⟩
    cases refSelf <;> cases force <;> simp_all [reset_sequence]
  · intro ⟨h1, h2⟩
    subst h1; subst h2
    exact ⟨_, rfl,
      "Can't reset a sequence on descendant factory " ++ sn ++
        "; reset sequence on ", " or use force=True.", rfl⟩
  · intro h
    refine ⟨?_, rfl⟩
    rcases h with h | h
    · subst h
      rfl
    · subst h
      cases refSelf <;> rfl
  · intro c' hc'
    cases refSelf <;> cases force <;> simp_all [reset_sequence] <;>
      simp [← hc', Counter.reset, Counter.next]

/-- Witness for C6's theorem, exercising both the owner success branch
(`refSelf = true`: the call returns the reset counter and its next value
is the requested 9) and the non-owner error branch (`refSelf = false`,
`force = false`: the error message names the owner). -/
theorem reset_sequence_ownership_witness :
    (reset_sequence "Descendant" "Owner" true ⟨5⟩ (some 9) 0 false =
        .ok (Counter.reset ⟨5⟩ 9) ∧
      ((Counter.reset ⟨5⟩ 9).next).1 = 9) ∧
    (∃ e, reset_sequence "Descendant" "Owner" false ⟨5⟩ (some 9) 0 false =
        .error e ∧ ∃ pre post, e = pre ++ ("Owner" ++ post)) :=
  ⟨(reset_sequence_ownership "Descendant" "Owner" true false ⟨5⟩ 9 0).2.1
      (Or.inl rfl),
    ((reset_sequence_ownership "Descendant" "Owner" false false ⟨5⟩ 9 0).1).mpr
      ⟨rfl, rfl⟩⟩

/-! ### Counter initialization (`FactoryOptions._initialize_counter`) -/

/-- The mutable state `_initialize_counter` touches, across a family of
definitions identified by `Nat`: each definition's `_counter` field (an
optional identifier into a store of allocated `_Counter` objects —
identifiers model Python object identity), and the store itself. -/
structure CounterWorld where
  fac : Nat → Option Nat
  store : List Counter

/-- `FactoryOptions._initialize_counter` (src/factory/base.py, lines
408-421): if our counter pointer is set, do nothing; if we are the counter
reference (`ref i = i`), allocate a fresh `_Counter` seeded with
`_setup_next_sequence()` (`seed i`); otherwise initialize the reference
and point at the identical counter object it holds.  The `fuel` argument
is only a termination device for the Python recursion, which stops after
at most two levels because `counter_reference` is already resolved
transitively (`ref (ref i) = ref i`). -/
def initialize_counter (ref : Nat → Nat) (seed : Nat → Int) :
    Nat → CounterWorld → Nat → CounterWorld
  | 0, w, _ => w
  | fuel + 1, w, i =>
    if (w.fac i).isSome then w
    else if ref i = i then
      { fac := fun j => if j = i then some w.store.length else w.fac j,
        store := w.store ++ [⟨seed i⟩] }
    else
      let w' := initialize_counter ref seed fuel w (ref i)
      { w' with fac := fun j => if j = i then w'.fac (ref i) else w'.fac j }

theorem initialize_counter_already (ref : Nat → Nat) (seed : Nat → Int)
    (fuel : Nat) (w : CounterWorld) (i : Nat) (h : (w.fac i).isSome = true) :
    initialize_counter ref seed (fuel + 1) w i = w := by
  simp [initialize_counter, h]

theorem initialize_counter_owner (ref : Nat → Nat) (seed : Nat → Int)
    (fuel : Nat) (w : CounterWorld) (i : Nat) (h : w.fac i = none)
    (hri : ref i = i) :
    initialize_counter ref seed (fuel + 1) w i =
      { fac := fun j => if j = i then some w.store.length else w.fac j,
        store := w.store ++ [⟨seed i⟩] } := by
  simp [initialize_counter, h, hri]

theorem initialize_counter_child (ref : Nat → Nat) (seed : Nat → Int)
    (fuel : Nat) (w : CounterWorld) (i : Nat) (h : w.fac i = none)
    (hri : ¬ ref i = i) :
    initialize_counter ref seed (fuel + 1) w i =
      { initialize_counter ref seed fuel w (ref i) with
        fac := fun j =>
          if j = i then (initialize_counter ref seed fuel w (ref i)).fac (ref i)
          else (initialize_counter ref seed fuel w (ref i)).fac j } := by
  simp [initialize_counter, h, hri]

theorem initialize_counter_root_isSome (ref : Nat → Nat) (seed : Nat → Int)
    (fuel : Nat) (w : CounterWorld) (r : Nat) (hr : ref r = r) :
    ((initialize_counter ref seed (fuel + 1) w r).fac r).isSome = true := by
  by_cases hs : (w.fac r).isSome
  · rw [initialize_counter_already ref seed fuel w r hs]
    exact hs
  · have h : w.fac r = none := Option.not_isSome_iff_eq_none.mp hs
    rw [initialize_counter_owner ref seed fuel w r h hr]
    simp

theorem initialize_counter_root_other (ref : Nat → Nat) (seed : Nat → Int)
    (fuel : Nat) (w : CounterWorld) (r j : Nat) (hr : ref r = r) (hj : j ≠ r) :
    (initialize_counter ref seed (fuel + 1) w r).fac j = w.fac j := by
  by_cases hs : (w.fac r).isSome
  · rw [initialize_counter_already ref seed fuel w r hs]
  · have h : w.fac r = none := Option.not_isSome_iff_eq_none.mp hs
    rw [initialize_counter_owner ref seed fuel w r h hr]
    simp [hj]

/-- C9: with the counter reference resolved transitively
(`ref (ref i) = ref i`, as `_get_counter_reference` guarantees) and
definition `i` not yet initialized, after `_initialize_counter`:
(a) `i` holds a counter; (b) it is the identical counter object held by
its counter reference; (c) calling `_initialize_counter` again replaces
nothing; and (d) a further definition `j` of the same sharing chain
(`ref j = ref i`, `j` not the owner) that initializes afterwards ends up
holding the very same counter object as `i`, so `next_sequence` on any
definition of the chain advances a single cursor. -/
theorem initialize_counter_idempotent_shared (ref : Nat → Nat)
    (seed : Nat → Int) (w : CounterWorld) (i : Nat)
    (href : ref (ref i) = ref i) (h0 : w.fac i = none) :
    ((initialize_counter ref seed 2 w i).fac i).isSome = true ∧
    (initialize_counter ref seed 2 w i).fac i =
      (initialize_counter ref seed 2 w i).fac (ref i) ∧
    initialize_counter ref seed 2 (initialize_counter ref seed 2 w i) i =
      initialize_counter ref seed 2 w i ∧
    (∀ j, (initialize_counter ref seed 2 w i).fac j = none → ref j = ref i →
      ref j ≠ j →
      (initialize_counter ref seed 2 (initialize_counter ref seed 2 w i) j).fac j
        = (initialize_counter ref seed 2 w i).fac i) := by
  have hab : ((initialize_counter ref seed 2 w i).fac i).isSome = true ∧
      (initialize_counter ref seed 2 w i).fac i =
        (initialize_counter ref seed 2 w i).fac (ref i) := by
    by_cases hri : ref i = i
    · rw [initialize_counter_owner ref seed 1 w i h0 hri, hri]
      simp
    · rw [initialize_counter_child ref seed 1 w i h0 hri]
      constructor
      · simp only [if_pos rfl]
        exact initialize_counter_root_isSome ref seed 0 w (ref i) href
      · simp only [if_pos rfl]
        rw [if_neg (fun hh : ref i = i => hri hh)]
        simp
  obtain ⟨ha, hb⟩ := hab
  refine ⟨ha, hb, initialize_counter_already ref seed 1 _ i ha, ?_⟩
  intro j hj hji hjj
  rw [initialize_counter_child ref seed 1 _ j hj hjj]
  simp only [if_pos rfl]
  have hrsome : ((initialize_counter ref seed 2 w i).fac (ref j)).isSome = true := by
    rw [hji, ← hb]
    exact ha
  rw [initialize_counter_already ref seed 0 _ (ref j) hrsome, hji, ← hb]
  simp

/-- Witness for C9's theorem: a two-member chain where definition 1
references definition 0. -/
theorem initialize_counter_idempotent_shared_witness :
    (((initialize_counter (fun n => if n = 1 then 0 else n) (fun _ => 0) 2
        ⟨fun _ => none, []⟩ 1).fac 1).isSome = true ∧
    (initialize_counter (fun n => if n = 1 then 0 else n) (fun _ => 0) 2
        ⟨fun _ => none, []⟩ 1).fac 1 =
      (initialize_counter (fun n => if n = 1 then 0 else n) (fun _ => 0) 2
        ⟨fun _ => none, []⟩ 1).fac ((fun n => if n = 1 then 0 else n) 1) ∧
    initialize_counter (fun n => if n = 1 then 0 else n) (fun _ => 0) 2
        (initialize_counter (fun n => if n = 1 then 0 else n) (fun _ => 0) 2
          ⟨fun _ => none, []⟩ 1) 1 =
      initialize_counter (fun n => if n = 1 then 0 else n) (fun _ => 0) 2
        ⟨fun _ => none, []⟩ 1 ∧
    (∀ j, (initialize_counter (fun n => if n = 1 then 0 else n) (fun _ => 0) 2
        ⟨fun _ => none, []⟩ 1).fac j = none →
      (fun n => if n = 1 then 0 else n) j = (fun n => if n = 1 then 0 else n) 1 →
      (fun n => if n = 1 then 0 else n) j ≠ j →
      (initialize_counter (fun n => if n = 1 then 0 else n) (fun _ => 0) 2
          (initialize_counter (fun n => if n = 1 then 0 else n) (fun _ => 0) 2
            ⟨fun _ => none, []⟩ 1) j).fac j =
        (initialize_counter (fun n => if n = 1 then 0 else n) (fun _ => 0) 2
          ⟨fun _ => none, []⟩ 1).fac 1)) :=
  initialize_counter_idempotent_shared (fun n => if n = 1 then 0 else n)
    (fun _ => 0) ⟨fun _ => none, []⟩ 1 (by decide) rfl

/-! ### Parameter dependency checking
(`FactoryOptions._check_parameter_dependencies`) -/

/-- The `collections.defaultdict(set)` named `deep_revdeps`, as an
insertion-ordered association list (Python dicts keep insertion order).
Closure sets are represented by lists; only membership and key order are
ever observed. -/
abbrev DepMap := List (String × List String)

/-- Dictionary lookup by key. -/
def ddLookup (k : String) : DepMap → Option (List String)
  | [] => none
  | p :: rest => if p.1 = k then some p.2 else ddLookup k rest

/-- Reading `deep_revdeps[k]`: a missing key reads as the empty set. -/
def ddGet (m : DepMap) (k : String) : List String :=
  (ddLookup k m).getD []

/-- The side effect of reading a missing key of a `defaultdict`: an empty
entry is inserted at the end. -/
def ddTouch (m : DepMap) (k : String) : DepMap :=
  if (ddLookup k m).isSome then m else m ++ [(k, [])]

/-- Assignment `deep_revdeps[k] = v`: overwrite in place, or append. -/
def ddSet (m : DepMap) (k : String) (v : List String) : DepMap :=
  if (ddLookup k m).isSome then
    m.map (fun p => if p.1 = k then (k, v) else p)
  else m ++ [(k, v)]

/-- One iteration of the `for name, parameter in parameters.items()` loop of
`_check_parameter_dependencies` (src/factory/base.py, lines 511-519), for a
parameter `p.1` with reverse-dependency list `p.2` (the result of
`Parameter.get_revdeps`; non-`Parameter` values have no reverse
dependencies, which the loop skips just like an empty `field_revdeps`).
Evaluating `deep_revdeps[dep]` inside `set.union` first touches each dep's
entry; the rebuilt entry is the union of the deps' current closures with
the direct deps themselves. -/
def depStep (m : DepMap) (p : String × List String) : DepMap :=
  if p.2.isEmpty then m
  else
    let m1 := p.2.foldl ddTouch m
    ddSet m1 p.1 ((p.2.foldl (fun acc d => acc ++ ddGet m1 d) []) ++ p.2)

/-- The `deep_revdeps` map after the whole loop. -/
def buildDeepRevdeps (params : List (String × List String)) : DepMap :=
  params.foldl depStep []

/-- The `cyclic` list: names whose own deep closure contains them, in
dictionary order. -/
def cyclicNames (params : List (String × List String)) : List String :=
  ((buildDeepRevdeps params).filter (fun p => decide (p.1 ∈ p.2))).map Prod.fst

/-- `FactoryOptions._check_parameter_dependencies` (lines 503-527), keeping
its observable registration behavior: raise `CyclicDefinitionError` when
`cyclic` is non-empty (its `deps` return value is unused by
`contribute_to_class`). -/
def check_parameter_dependencies (factoryName : String)
    (params : List (String × List String)) : Except String Unit :=
  if cyclicNames params = [] then .ok ()
  else
    .error (("Cyclic definition detected on " ++ factoryName ++
      "; Params around ") ++ String.intercalate ", " (cyclicNames params))

theorem ddLookup_append_some {k : String} {m m' : DepMap} {v : List String}
    (h : ddLookup k m = some v) : ddLookup k (m ++ m') = some v := by
  induction m with
  | nil => simp [ddLookup] at h
  | cons p rest ih =>
    by_cases hp : p.1 = k
    · simp only [ddLookup, hp, if_true] at h
      simp only [List.cons_append, ddLookup, hp, if_true]
      exact h
    · simp only [ddLookup, hp, if_false] at h
      simp only [List.cons_append, ddLookup, hp, if_false]
      exact ih h

theorem ddLookup_none_append {k : String} {m : DepMap} (m' : DepMap)
    (h : ddLookup k m = none) : ddLookup k (m ++ m') = ddLookup k m' := by
  induction m with
  | nil => rfl
  | cons p rest ih =>
    by_cases hp : p.1 = k
    · simp [ddLookup, hp] at h
    · simp only [ddLookup, hp, if_false] at h
      simp only [List.cons_append, ddLookup, hp, if_false]
      exact ih h

theorem ddLookup_ddTouch_some {k k' : String} {m : DepMap} {v : List String}
    (h : ddLookup k m = some v) : ddLookup k (ddTouch m k') = some v := by
  unfold ddTouch
  by_cases hs : (ddLookup k' m).isSome = true
  · simp only [hs, if_true]
    exact h
  · simp only [hs, if_false]
    exact ddLookup_append_some h

theorem ddLookup_foldl_ddTouch_some {k : String} {m : DepMap} {v : List String}
    (ds : List String) (h : ddLookup k m = some v) :
    ddLookup k (ds.foldl ddTouch m) = some v := by
  induction ds generalizing m with
  | nil => exact h
  | cons d ds ih => exact ih (ddLookup_ddTouch_some h)

theorem ddLookup_map_set {m : DepMap} {k : String} (v : List String)
    (hs : (ddLookup k m).isSome = true) :
    ddLookup k (m.map (fun p => if p.1 = k then (k, v) else p)) = some v := by
  induction m with
  | nil => simp [ddLookup] at hs
  | cons p rest ih =>
    by_cases hp : p.1 = k
    · simp [List.map_cons, if_pos hp, ddLookup]
    · have hs' : (ddLookup k rest).isSome = true := by
        simpa [ddLookup, hp] using hs
      simp only [List.map_cons, if_neg hp, ddLookup, hp, if_false]
      exact ih hs'

theorem ddLookup_map_set_ne {m : DepMap} {k A : String} (v : List String)
    (hk : k ≠ A) :
    ddLookup A (m.map (fun p => if p.1 = k then (k, v) else p)) =
      ddLookup A m := by
  induction m with
  | nil => rfl
  | cons p rest ih =>
    by_cases hp : p.1 = k
    · simp [List.map_cons, hp, ddLookup, hk, ih]
    · simp [List.map_cons, hp, ddLookup, ih]

theorem ddSet_of_some {m : DepMap} {k : String} (v : List String)
    (h : (ddLookup k m).isSome = true) :
    ddSet m k v = m.map (fun p => if p.1 = k then (k, v) else p) := by
  simp [ddSet, h]

theorem ddSet_of_none {m : DepMap} {k : String} (v : List String)
    (h : ddLookup k m = none) : ddSet m k v = m ++ [(k, v)] := by
  unfold ddSet
  rw [h]
  rfl

theorem ddLookup_ddSet_self (m : DepMap) (k : String) (v : List String) :
    ddLookup k (ddSet m k v) = some v := by
  by_cases hs : (ddLookup k m).isSome = true
  · rw [ddSet_of_some v hs]
    exact ddLookup_map_set v hs
  · have h : ddLookup k m = none := by
      cases h : ddLookup k m
      · rfl
      · rw [h] at hs; simp at hs
    rw [ddSet_of_none v h, ddLookup_none_append _ h]
    simp [ddLookup]

theorem ddLookup_ddSet_ne {A : String} (m : DepMap) (k : String)
    (v : List String) (hk : k ≠ A) :
    ddLookup A (ddSet m k v) = ddLookup A m := by
  by_cases hs : (ddLookup k m).isSome = true
  · rw [ddSet_of_some v hs]
    exact ddLookup_map_set_ne v hk
  · have h : ddLookup k m = none := by
      cases h : ddLookup k m
      · rfl
      · rw [h] at hs; simp at hs
    rw [ddSet_of_none v h]
    cases hA : ddLookup A m with
    | some v' => exact ddLookup_append_some hA
    | none =>
      rw [ddLookup_none_append _ hA]
      simp [ddLookup, hk]

theorem depStep_of_empty {m : DepMap} {q : String × List String}
    (he : q.2.isEmpty = true) : depStep m q = m := by
  simp [depStep, he]

theorem depStep_of_nonempty {m : DepMap} {q : String × List String}
    (he : q.2.isEmpty = false) :
    depStep m q = ddSet (q.2.foldl ddTouch m) q.1
      ((q.2.foldl (fun acc d => acc ++ ddGet (q.2.foldl ddTouch m) d) []) ++ q.2) := by
  unfold depStep
  rw [he]
  rfl

theorem ddLookup_depStep_ne {A : String} {m : DepMap}
    (q : String × List String) (hq : q.1 ≠ A) {v : List String}
    (h : ddLookup A m = some v) : ddLookup A (depStep m q) = some v := by
  cases he : q.2.isEmpty
  · rw [depStep_of_nonempty he, ddLookup_ddSet_ne _ _ _ hq]
    exact ddLookup_foldl_ddTouch_some _ h
  · rw [depStep_of_empty he]
    exact h

theorem ddLookup_foldl_depStep_ne {A : String} {m : DepMap} {v : List String}
    (l : List (String × List String)) (hl : ∀ q ∈ l, q.1 ≠ A)
    (h : ddLookup A m = some v) : ddLookup A (l.foldl depStep m) = some v := by
  induction l generalizing m with
  | nil => exact h
  | cons q l ih =>
    exact ih (fun r hr => hl r (List.mem_cons_of_mem q hr))
      (ddLookup_depStep_ne q (hl q (List.mem_cons_self q l)) h)

theorem ddLookup_depStep_self (m : DepMap) (k : String) (r : List String)
    (hr : r.isEmpty = false) :
    ddLookup k (depStep m (k, r)) =
      some ((r.foldl (fun acc d => acc ++ ddGet (r.foldl ddTouch m) d) []) ++ r) := by
  rw [depStep_of_nonempty hr]
  exact ddLookup_ddSet_self _ _ _

theorem ddLookup_mem {k : String} {v : List String} {m : DepMap}
    (h : ddLookup k m = some v) : (k, v) ∈ m := by
  induction m with
  | nil => cases h
  | cons p rest ih =>
    by_cases hp : p.1 = k
    · simp only [ddLookup, hp, if_true, Option.some.injEq] at h
      have : p = (k, v) := by
        cases p
        simp only at hp h
        rw [hp, h]
      rw [← this]
      exact List.mem_cons_self p rest
    · simp only [ddLookup, hp, if_false] at h
      exact List.mem_cons_of_mem p (ih h)

theorem mem_foldl_concat {x : String} {m1 : DepMap} {ds acc : List String}
    (h : x ∈ acc ∨ ∃ d ∈ ds, x ∈ ddGet m1 d) :
    x ∈ ds.foldl (fun acc d => acc ++ ddGet m1 d) acc := by
  induction ds generalizing acc with
  | nil =>
    rcases h with h | ⟨d, hd, _⟩
    · exact h
    · cases hd
  | cons d ds ih =>
    apply ih
    rcases h with h | ⟨d', hd', hx⟩
    · exact Or.inl (List.mem_append_left _ h)
    · rcases List.mem_cons.mp hd' with rfl | hd'
      · exact Or.inl (List.mem_append_right _ hx)
      · exact Or.inr ⟨d', hd', hx⟩

theorem mem_foldl_concat_inv {x : String} {m1 : DepMap} {ds acc : List String}
    (h : x ∈ ds.foldl (fun acc d => acc ++ ddGet m1 d) acc) :
    x ∈ acc ∨ ∃ d ∈ ds, x ∈ ddGet m1 d := by
  induction ds generalizing acc with
  | nil => exact Or.inl h
  | cons d ds ih =>
    rcases ih h with h' | ⟨d', hd', hx⟩
    · rcases List.mem_append.mp h' with h' | h'
      · exact Or.inl h'
      · exact Or.inr ⟨d, List.mem_cons_self d ds, h'⟩
    · exact Or.inr ⟨d', List.mem_cons_of_mem d hd', hx⟩

theorem ddGet_mem {x : String} {m : DepMap} {k : String} (h : x ∈ ddGet m k) :
    ∃ v, ddLookup k m = some v ∧ x ∈ v := by
  unfold ddGet at h
  cases hv : ddLookup k m with
  | none => rw [hv] at h; cases h
  | some v => rw [hv] at h; exact ⟨v, rfl, h⟩

theorem mem_ddSet {p : String × List String} {m : DepMap} {k : String}
    {v : List String} (h : p ∈ ddSet m k v) : p = (k, v) ∨ p ∈ m := by
  by_cases hs : (ddLookup k m).isSome = true
  · rw [ddSet_of_some v hs] at h
    obtain ⟨q, hq, hfq⟩ := List.mem_map.mp h
    by_cases hqk : q.1 = k
    · left
      rw [← hfq, if_pos hqk]
    · right
      rw [← hfq, if_neg hqk]
      exact hq
  · have hn : ddLookup k m = none := by
      cases hn : ddLookup k m
      · rfl
      · rw [hn] at hs; simp at hs
    rw [ddSet_of_none v hn] at h
    rcases List.mem_append.mp h with h | h
    · exact Or.inr h
    · left
      simpa using h

theorem mem_foldl_ddTouch {p : String × List String} {m : DepMap}
    {ds : List String} (h : p ∈ ds.foldl ddTouch m) : p ∈ m ∨ p.2 = [] := by
  induction ds generalizing m with
  | nil => exact Or.inl h
  | cons d ds ih =>
    rcases ih h with h' | h'
    · unfold ddTouch at h'
      by_cases hs : (ddLookup d m).isSome = true
      · rw [if_pos hs] at h'
        exact Or.inl h'
      · rw [if_neg hs] at h'
        rcases List.mem_append.mp h' with h' | h'
        · exact Or.inl h'
        · right
          have : p = (d, []) := by simpa using h'
          rw [this]
    · exact Or.inr h'

/-- The direct dependency-reading relation declared by a parameter mapping:
`paramRel params x y` states that parameter `x` lists `y` among its
reverse-dependencies. -/
def paramRel (params : List (String × List String)) (x y : String) : Prop :=
  ∃ r, (x, r) ∈ params ∧ y ∈ r

/-- Soundness invariant of the `deep_revdeps` accumulation: every recorded
closure member is transitively reachable through `paramRel`. -/
def DepInv (params : List (String × List String)) (m : DepMap) : Prop :=
  ∀ p ∈ m, ∀ x ∈ p.2, Relation.TransGen (paramRel params) p.1 x

theorem depInv_depStep (params : List (String × List String)) {m : DepMap}
    (hm : DepInv params m) {q : String × List String} (hq : q ∈ params) :
    DepInv params (depStep m q) := by
  cases he : q.2.isEmpty
  · rw [depStep_of_nonempty he]
    have hm1 : DepInv params (q.2.foldl ddTouch m) := by
      intro p hp x hx
      rcases mem_foldl_ddTouch hp with hp' | hp'
      · exact hm p hp' x hx
      · rw [hp'] at hx
        cases hx
    intro p hp x hx
    rcases mem_ddSet hp with rfl | hp'
    · simp only at hx
      have hqq : (q.1, q.2) ∈ params := by
        cases q
        exact hq
      rcases List.mem_append.mp hx with hx' | hx'
      · rcases mem_foldl_concat_inv hx' with hx'' | ⟨d, hd, hxd⟩
        · cases hx''
        · obtain ⟨v, hv, hxv⟩ := ddGet_mem hxd
          exact Relation.TransGen.head ⟨q.2, hqq, hd⟩
            (hm1 (d, v) (ddLookup_mem hv) x hxv)
      · exact Relation.TransGen.single ⟨q.2, hqq, hx'⟩
    · exact hm1 p hp' x hx
  · rw [depStep_of_empty he]
    exact hm

theorem depInv_foldl (params : List (String × List String)) {m : DepMap}
    (hm : DepInv params m) (l : List (String × List String))
    (hl : ∀ q ∈ l, q ∈ params) : DepInv params (l.foldl depStep m) := by
  induction l generalizing m with
  | nil => exact hm
  | cons q l ih =>
    exact ih (depInv_depStep params hm (hl q (List.mem_cons_self q l)))
      (fun r hr => hl r (List.mem_cons_of_mem q hr))

theorem acyclic_cyclicNames_nil (params : List (String × List String))
    (hacyc : ∀ n, ¬ Relation.TransGen (paramRel params) n n) :
    cyclicNames params = [] := by
  have hinv : DepInv params (buildDeepRevdeps params) :=
    depInv_foldl params (fun p hp => absurd hp (List.not_mem_nil p)) params
      (fun q hq => hq)
  unfold cyclicNames
  rw [List.map_eq_nil_iff, List.filter_eq_nil_iff]
  intro p hp hdec
  have hmem : p.1 ∈ p.2 := of_decide_eq_true hdec
  exact hacyc p.1 (hinv p hp p.1 hmem)

theorem cyclic_two_cycle_mem_aux (m0 : DepMap)
    (l2a l2b : List (String × List String)) (A B : String)
    (ra rb : List String) (hA2a : ∀ q ∈ l2a, q.1 ≠ A)
    (hBb : ∀ q ∈ l2b, q.1 ≠ B) (hBra : B ∈ ra) (hArb : A ∈ rb) :
    ∃ s, ddLookup B
        (l2b.foldl depStep
          (depStep (l2a.foldl depStep (depStep m0 (A, ra))) (B, rb))) =
      some s ∧ B ∈ s := by
  have hra : ra.isEmpty = false := by
    cases ra
    · cases hBra
    · rfl
  have hrb : rb.isEmpty = false := by
    cases rb
    · cases hArb
    · rfl
  obtain ⟨clA, hAval, hBclA⟩ :
      ∃ s, ddLookup A (depStep m0 (A, ra)) = some s ∧ B ∈ s :=
    ⟨_, ddLookup_depStep_self m0 A ra hra, List.mem_append_right _ hBra⟩
  have hAval0 := ddLookup_foldl_depStep_ne l2a hA2a hAval
  have hAm1 := ddLookup_foldl_ddTouch_some rb hAval0
  have hBget : B ∈ ddGet
      (rb.foldl ddTouch (l2a.foldl depStep (depStep m0 (A, ra)))) A := by
    unfold ddGet
    rw [hAm1]
    exact hBclA
  have hBclB : B ∈ (rb.foldl
      (fun acc d => acc ++
        ddGet (rb.foldl ddTouch (l2a.foldl depStep (depStep m0 (A, ra)))) d)
      []) ++ rb :=
    List.mem_append_left _ (mem_foldl_concat (Or.inr ⟨A, hArb, hBget⟩))
  exact ⟨_, ddLookup_foldl_depStep_ne l2b hBb
    (ddLookup_depStep_self _ B rb hrb), hBclB⟩

theorem cyclic_two_cycle_mem (l1 l2a l2b : List (String × List String))
    (A B : String) (ra rb : List String) (hA2a : ∀ q ∈ l2a, q.1 ≠ A)
    (hBb : ∀ q ∈ l2b, q.1 ≠ B) (hBra : B ∈ ra) (hArb : A ∈ rb) :
    ∃ s, ddLookup B
        (buildDeepRevdeps (l1 ++ (A, ra) :: (l2a ++ (B, rb) :: l2b))) =
      some s ∧ B ∈ s := by
  unfold buildDeepRevdeps
  rw [List.foldl_append, List.foldl_cons, List.foldl_append, List.foldl_cons]
  exact cyclic_two_cycle_mem_aux (l1.foldl depStep []) l2a l2b A B ra rb
    hA2a hBb hBra hArb

/-- C3 counterexample: for the two-parameter cycle `A ↔ B` (each declaring
the other as reverse-dependency, `A` declared first), registration does
fail, but the `cyclic` list driving the error message is `["B"]` alone —
the message does not name both offending parameters `A` and `B`; it names
only the later-declared one. -/
theorem check_parameter_dependencies_two_cycle_names_only_one :
    cyclicNames [("A", ["B"]), ("B", ["A"])] = ["B"] ∧
    "A" ∉ cyclicNames [("A", ["B"]), ("B", ["A"])] ∧
    check_parameter_dependencies "MyFactory" [("A", ["B"]), ("B", ["A"])] =
      .error "Cyclic definition detected on MyFactory; Params around B" := by
  refine ⟨by decide, by decide, rfl⟩

/-- C3 (amended): for every parameter mapping (unique names) in which `A`
declares `B` among its reverse-dependencies and `B`, declared later,
declares `A` among its reverse-dependencies, registration fails with a
cyclic-definition error whose message names the definition and the
offending parameters whose single-pass deep closure contains themselves —
which for such a two-parameter cycle includes the later-declared `B`, but
not necessarily both names; for an acyclic parameter mapping,
`_check_parameter_dependencies` raises no error. -/
theorem check_parameter_dependencies_cycle_and_acyclic (fn : String)
    (l1 l2 : List (String × List String)) (A B : String)
    (ra rb : List String) (params : List (String × List String))
    (hnodup : ((l1 ++ (A, ra) :: l2).map Prod.fst).Nodup)
    (hB : (B, rb) ∈ l2) (hBra : B ∈ ra) (hArb : A ∈ rb)
    (hacyc : ∀ n, ¬ Relation.TransGen (paramRel params) n n) :
    B ∈ cyclicNames (l1 ++ (A, ra) :: l2) ∧
    check_parameter_dependencies fn (l1 ++ (A, ra) :: l2) =
      .error (("Cyclic definition detected on " ++ fn ++
        "; Params around ") ++
        String.intercalate ", " (cyclicNames (l1 ++ (A, ra) :: l2))) ∧
    check_parameter_dependencies fn params = .ok () := by
  obtain ⟨l2a, l2b, rfl⟩ := List.append_of_mem hB
  have hmap : (List.map Prod.fst l1 ++
      A :: List.map Prod.fst (l2a ++ (B, rb) :: l2b)).Nodup := by
    simpa [List.map_append] using hnodup
  have htail := hmap.of_append_right
  have hAnot : A ∉ List.map Prod.fst (l2a ++ (B, rb) :: l2b) :=
    (List.nodup_cons.mp htail).1
  have hl2nodup := (List.nodup_cons.mp htail).2
  have hA2a : ∀ q ∈ l2a, q.1 ≠ A := by
    intro q hq heq
    apply hAnot
    rw [← heq]
    exact List.mem_map_of_mem Prod.fst (List.mem_append_left _ hq)
  have hBb : ∀ q ∈ l2b, q.1 ≠ B := by
    have hsplit : (List.map Prod.fst l2a ++
        B :: List.map Prod.fst l2b).Nodup := by
      simpa [List.map_append] using hl2nodup
    have h2 := (List.nodup_cons.mp hsplit.of_append_right).1
    intro q hq heq
    apply h2
    rw [← heq]
    exact List.mem_map_of_mem Prod.fst hq
  obtain ⟨s, hlook, hBs⟩ :=
    cyclic_two_cycle_mem l1 l2a l2b A B ra rb hA2a hBb hBra hArb
  have hBmem : B ∈ cyclicNames (l1 ++ (A, ra) :: (l2a ++ (B, rb) :: l2b)) := by
    unfold cyclicNames
    exact List.mem_map.mpr ⟨(B, s),
      List.mem_filter.mpr ⟨ddLookup_mem hlook, decide_eq_true hBs⟩, rfl⟩
  refine ⟨hBmem, ?_, ?_⟩
  · unfold check_parameter_dependencies
    rw [if_neg (by exact fun hnil => List.ne_nil_of_mem hBmem hnil)]
  · unfold check_parameter_dependencies
    rw [acyclic_cyclicNames_nil params hacyc]
    rfl

/-- Witness for C3's amended theorem: the concrete `A ↔ B` cycle together
with the empty (trivially acyclic) mapping. -/
theorem check_parameter_dependencies_cycle_and_acyclic_witness :
    "B" ∈ cyclicNames ([] ++ ("A", ["B"]) :: [("B", ["A"])]) ∧
    check_parameter_dependencies "MyFactory"
        ([] ++ ("A", ["B"]) :: [("B", ["A"])]) =
      .error (("Cyclic definition detected on " ++ "MyFactory" ++
        "; Params around ") ++
        String.intercalate ", "
          (cyclicNames ([] ++ ("A", ["B"]) :: [("B", ["A"])]))) ∧
    check_parameter_dependencies "MyFactory" [] = .ok () :=
  check_parameter_dependencies_cycle_and_acyclic "MyFactory" []
    [("B", ["A"])] "A" "B" ["B"] ["A"] [] (by decide) (by decide)
    (by decide) (by decide)
    (fun n h => by
      cases h with
      | single hr =>
        obtain ⟨r, hmem, _⟩ := hr
        exact absurd hmem (List.not_mem_nil _)
      | tail _ hr =>
        obtain ⟨r, hmem, _⟩ := hr
        exact absurd hmem (List.not_mem_nil _))

/-! ### Option resolution (`OptionDefault`, `FactoryOptions._fill_from_meta`)
and strategy dispatch (`FactoryMetaClass.__call__`) -/

/-- Python attribute values as far as option resolution observes them
(`()` and `{}` are the inert defaults of `inline_args`/`exclude`/`rename`). -/
inductive PyVal
  | str (s : String)
  | pybool (b : Bool)
  | pyint (n : Int)
  | pynone
  | emptyTuple
  | emptyDict
deriving DecidableEq, Repr

/-- Association-list lookup, modelling Python attribute/dict access. -/
def alookup {α : Type} (k : String) : List (String × α) → Option α
  | [] => none
  | p :: rest => if p.1 = k then some p.2 else alookup k rest

/-- Class `OptionDefault` (src/factory/base.py, lines 108-140): name,
default value and inheritability of one recognized `class Meta` option.
None of the options built by `_build_default_options` carries a `checker`,
so the checker step is the identity. -/
structure OptionDefault where
  name : String
  value : PyVal
  inherit : Bool
deriving DecidableEq, Repr

/-- `OptionDefault.apply` (lines 125-135): take the hard default, then the
base `Meta`'s value when inheriting, then this `Meta`'s value. -/
def OptionDefault.apply (o : OptionDefault)
    (meta baseMeta : Option (List (String × PyVal))) : PyVal :=
  let v1 :=
    match baseMeta with
    | some bm => if o.inherit then (alookup o.name bm).getD o.value else o.value
    | none => o.value
  match meta with
  | some m => (alookup o.name m).getD v1
  | none => v1

/-- `FactoryOptions._build_default_options` (lines 277-304): the recognized
options with their defaults; `strategy` defaults to
`enums.CREATE_STRATEGY` (the string `"create"`) and has no checker. -/
def build_default_options : List OptionDefault :=
  [⟨"model", .pynone, true⟩,
   ⟨"abstract", .pybool false, false⟩,
   ⟨"strategy", .str "create", true⟩,
   ⟨"inline_args", .emptyTuple, true⟩,
   ⟨"exclude", .emptyTuple, true⟩,
   ⟨"rename", .emptyDict, true⟩,
   ⟨"introspector_class", .pynone, true⟩,
   ⟨"default_auto_fields", .pybool false, true⟩,
   ⟨"include_auto_fields", .emptyTuple, false⟩,
   ⟨"exclude_auto_fields", .emptyTuple, false⟩]

/-- `k.startswith('_')`, the private-attribute test of `_fill_from_meta`. -/
def isPrivateName (s : String) : Bool :=
  s.data.head? = some '_'

/-- Lexicographic comparison by code point, as Python's `sorted` orders
strings. -/
def charListLe : List Char → List Char → Bool
  | [], _ => true
  | _ :: _, [] => false
  | a :: as, b :: bs =>
    if a.toNat < b.toNat then true
    else if b.toNat < a.toNat then false
    else charListLe as bs

def insertSorted (x : String) : List String → List String
  | [] => [x]
  | y :: ys =>
    if charListLe x.data y.data then x :: y :: ys else y :: insertSorted x ys

/-- Python's `sorted` on a list of strings (insertion sort; only the
ordering of the result matters). -/
def sortStrings : List String → List String
  | [] => []
  | x :: xs => insertSorted x (sortStrings xs)

/-- `FactoryOptions._fill_from_meta` (lines 306-327): resolve every
recognized option through `OptionDefault.apply` and fail with a
`TypeError` naming the sorted unknown attributes if any non-underscore
`Meta` attribute is not a recognized option.  No option value — in
particular no strategy name — is ever validated here. -/
def fill_from_meta (factoryName : String)
    (meta baseMeta : Option (List (String × PyVal))) :
    Except String (List (String × PyVal)) :=
  let metaAttrs := (meta.getD []).filter (fun p => !(isPrivateName p.1))
  let leftover := metaAttrs.filter
    (fun p => !((build_default_options.map OptionDefault.name).contains p.1))
  if leftover.isEmpty then
    .ok (build_default_options.map (fun o => (o.name, o.apply meta baseMeta)))
  else
    .error (("'class Meta' for " ++ factoryName ++
      " got unknown attribute(s) ") ++
      String.intercalate "," (sortStrings (leftover.map Prod.fst)))

/-- The three strategies of the `enums` module: `BUILD_STRATEGY = "build"`,
`CREATE_STRATEGY = "create"`, `STUB_STRATEGY = "stub"`. -/
inductive Strategy
  | build
  | create
  | stub
deriving DecidableEq, Repr

/-- Which classmethod `FactoryMetaClass.__call__` dispatches to. -/
inductive CallAction
  | callBuild
  | callCreate
  | callStub
deriving DecidableEq, Repr

/-- Rendering of a strategy value inside the `UnknownStrategy` message. -/
def PyVal.render : PyVal → String
  | .str s => s
  | .pybool b => if b then "True" else "False"
  | .pyint n => toString n
  | .pynone => "None"
  | .emptyTuple => "()"
  | .emptyDict => "\x7b\x7d"

/-- `FactoryMetaClass.__call__` (src/factory/base.py, lines 37-51):
`Factory(**kwargs)` dispatches on the resolved `Meta.strategy` and raises
`UnknownStrategy` for any other value — at call time, when an instance is
requested. -/
def metaclass_call (strategy : PyVal) : Except String CallAction :=
  if strategy = .str "build" then .ok .callBuild
  else if strategy = .str "create" then .ok .callCreate
  else if strategy = .str "stub" then .ok .callStub
  else .error ("Unknown Meta.strategy: " ++ strategy.render)

/-- C5 counterexample: a `Meta` block declaring `strategy = "bogus"`
registers without any error — `_fill_from_meta` resolves the strategy
option to the bogus value and raises nothing — while the
`UnknownStrategy` error only appears when the definition is called
through its default strategy. -/
theorem unknown_strategy_registration_succeeds :
    (∃ opts, fill_from_meta "F" (some [("strategy", .str "bogus")]) none =
        .ok opts ∧ alookup "strategy" opts = some (.str "bogus")) ∧
    metaclass_call (.str "bogus") =
      .error "Unknown Meta.strategy: bogus" := by
  refine ⟨⟨build_default_options.map
    (fun o => (o.name, o.apply (some [("strategy", .str "bogus")]) none)),
    ?_, ?_⟩, ?_⟩ <;> rfl

/-- C5 (amended): an unrecognized strategy name is accepted silently at
definition registration (no option checker exists for `strategy`); the
fatal `UnknownStrategy` configuration error is raised only when an
instance is requested through the definition's default-strategy call,
while the three recognized names dispatch to their classmethods. -/
theorem unknown_strategy_deferred_to_call (s : PyVal)
    (base : Option (List (String × PyVal))) :
    (∃ opts, fill_from_meta "F" (some [("strategy", s)]) base = .ok opts ∧
      alookup "strategy" opts = some s) ∧
    (s ≠ .str "build" → s ≠ .str "create" → s ≠ .str "stub" →
      metaclass_call s = .error ("Unknown Meta.strategy: " ++ s.render)) ∧
    metaclass_call (.str "build") = .ok .callBuild ∧
    metaclass_call (.str "create") = .ok .callCreate ∧
    metaclass_call (.str "stub") = .ok .callStub := by
  refine ⟨⟨build_default_options.map
    (fun o => (o.name, o.apply (some [("strategy", s)]) base)),
    ?_, ?_⟩, ?_, rfl, rfl, rfl⟩
  · rfl
  · rfl
  · intro h1 h2 h3
    simp [metaclass_call, h1, h2, h3]

/-- Witness for C5's amended theorem at a concrete bogus strategy. -/
theorem unknown_strategy_deferred_to_call_witness :
    ((∃ opts, fill_from_meta "F" (some [("strategy", .str "bogus")]) none =
        .ok opts ∧ alookup "strategy" opts = some (.str "bogus")) ∧
    ((.str "bogus" : PyVal) ≠ .str "build" →
      (.str "bogus" : PyVal) ≠ .str "create" →
      (.str "bogus" : PyVal) ≠ .str "stub" →
      metaclass_call (.str "bogus") =
        .error ("Unknown Meta.strategy: " ++ (PyVal.str "bogus").render)) ∧
    metaclass_call (.str "build") = .ok .callBuild ∧
    metaclass_call (.str "create") = .ok .callCreate ∧
    metaclass_call (.str "stub") = .ok .callStub) :=
  unknown_strategy_deferred_to_call (.str "bogus") none

/-! ### The abstract guard (`BaseFactory._generate`) -/

/-- The result of a successful `_generate`: the construction step that
`builder.StepBuilder(cls._meta, params, strategy).build()` would run (the
`builder` module is not under src/, so the step is recorded symbolically;
the claim concerns only the guard in front of it). -/
inductive GenerateResult
  | stepBuild (strategy : Strategy) (params : List (String × PyVal))
deriving DecidableEq, Repr

/-- `BaseFactory._generate` (src/factory/base.py, lines 648-662): every
strategy — `build`, `create` and `stub` alike — first fails on an
abstract definition; `build()`, `create()` and `stub()` (lines 705-746)
all funnel through this guard. -/
def generate (abstract : Bool) (factoryName : String) (strategy : Strategy)
    (params : List (String × PyVal)) : Except String GenerateResult :=
  if abstract then
    .error (("Cannot generate instances of abstract factory " ++
      factoryName ++ "; Ensure ") ++ (factoryName ++
      ".Meta.model is set and " ++ factoryName ++
      ".Meta.abstract is either not set or False."))
  else
    .ok (.stepBuild strategy params)

/-- `FactoryOptions.contribute_to_class` (lines 344-346): a definition
with no target type configured is forced abstract. -/
def forced_abstract (declaredAbstract : Bool) (model : Option PyClass) : Bool :=
  declaredAbstract || model.isNone

/-- C4 counterexample: on a definition with no target type configured
(hence forced abstract), the stub strategy does *not* succeed: `stub()`
goes through `_generate`, whose abstract guard raises before any
attribute container is built. -/
theorem stub_on_model_less_definition_fails :
    forced_abstract false none = true ∧
    generate (forced_abstract false none) "F" .stub [] =
      .error (("Cannot generate instances of abstract factory " ++
        "F" ++ "; Ensure ") ++ ("F" ++ ".Meta.model is set and " ++ "F" ++
        ".Meta.abstract is either not set or False.")) :=
  ⟨rfl, rfl⟩

/-- C4 (amended): invoking build, create *or stub* on a definition with no
target type configured (hence forced abstract) raises a descriptive
configuration error and constructs no object; no strategy is exempt from
the abstract guard, and on a non-abstract definition every strategy
proceeds to the construction step. -/
theorem generate_abstract_guard (fname : String) (strategy : Strategy)
    (params : List (String × PyVal)) (model : Option PyClass)
    (declaredAbstract : Bool) (hmodel : model = none) :
    (∃ e, generate (forced_abstract declaredAbstract model) fname strategy
      params = .error e) ∧
    (∀ st : Strategy, ∀ params', generate false fname st params' =
      .ok (.stepBuild st params')) := by
  constructor
  · subst hmodel
    cases declaredAbstract <;> exact ⟨_, rfl⟩
  · intro st params'
    rfl

/-- Witness for C4's amended theorem at concrete inputs. -/
theorem generate_abstract_guard_witness :
    ((∃ e, generate (forced_abstract false none) "F" .stub [] = .error e) ∧
    (∀ st : Strategy, ∀ params', generate false "F" st params' =
      .ok (.stepBuild st params'))) :=
  generate_abstract_guard "F" .stub [] none false rfl

/-! ### Argument preparation (`FactoryOptions.prepare_arguments`) and
instantiation (`FactoryOptions.instantiate`, `StubObject`) -/

/-- A resolved attribute value: either an ordinary Python value or the
`declarations.SKIP` sentinel. -/
inductive AttrVal
  | py (x : PyVal)
  | SKIP
deriving DecidableEq, Repr

/-- The resolved attributes mapping / keyword-argument dict: an
insertion-ordered association list with unique keys. -/
abbrev Kwargs := List (String × AttrVal)

/-- Removal of a key from a dict (the destructive part of `dict.pop`). -/
def removeKey (k : String) : Kwargs → Kwargs
  | [] => []
  | p :: rest => if p.1 = k then removeKey k rest else p :: removeKey k rest

/-- `kwargs.pop(k)`: the value and the remaining dict, or `None` standing
for the `KeyError` Python raises when the key is absent. -/
def dictPop (k : String) (d : Kwargs) : Option (AttrVal × Kwargs) :=
  match alookup k d with
  | none => none
  | some v => some (v, removeKey k d)

/-- `kwargs[k] = v`: replace in place, or append a new entry. -/
def dictSet (k : String) (v : AttrVal) : Kwargs → Kwargs
  | [] => [(k, v)]
  | p :: rest => if p.1 = k then (k, v) :: rest else p :: dictSet k v rest

/-- Step 2 of `prepare_arguments` (lines 452-456): the dict comprehension
dropping names in `Meta.exclude`, names colliding with a `Parameter`, and
entries whose value is the `SKIP` sentinel. -/
def dropHidden (exclude parameters : List String) : Kwargs → Kwargs
  | [] => []
  | p :: rest =>
    if p.1 ∈ exclude ∨ p.1 ∈ parameters ∨ p.2 = .SKIP then
      dropHidden exclude parameters rest
    else p :: dropHidden exclude parameters rest

/-- Step 3 of `prepare_arguments` (lines 458-460): for each
`old_name → new_name` of the rename map in order,
`kwargs[new_name] = kwargs.pop(old_name)`. -/
def applyRenames : List (String × String) → Kwargs → Option Kwargs
  | [], d => some d
  | r :: rest, d =>
    match dictPop r.1 d with
    | none => none
    | some (v, d1) => applyRenames rest (dictSet r.2 v d1)

/-- Step 4 of `prepare_arguments` (lines 462-466):
`args = tuple(kwargs.pop(arg_name) for arg_name in self.inline_args)`. -/
def extractInline : List String → Kwargs → Option (List AttrVal × Kwargs)
  | [], d => some ([], d)
  | n :: rest, d =>
    match dictPop n d with
    | none => none
    | some pv =>
      match extractInline rest pv.2 with
      | none => none
      | some vd => some (pv.1 :: vd.1, vd.2)

/-- The `prepare_arguments`-relevant slice of `FactoryOptions`. -/
structure PrepareOpts where
  exclude : List String
  parameters : List String
  rename : List (String × String)
  inline_args : List String
deriving DecidableEq, Repr

/-- `FactoryOptions.prepare_arguments` (src/factory/base.py, lines
446-468): run the `_adjust_kwargs` extension hook, drop hidden entries,
apply the rename map, extract the inline positional arguments, and return
the `(args, kwargs)` pair.  `none` models the `KeyError` Python raises
when a rename source or inline name is absent. -/
def prepare_arguments (adjust_kwargs : Kwargs → Kwargs) (o : PrepareOpts)
    (attributes : Kwargs) : Option (List AttrVal × Kwargs) :=
  let kwargs := adjust_kwargs attributes
  let kwargs := dropHidden o.exclude o.parameters kwargs
  match applyRenames o.rename kwargs with
  | none => none
  | some kwargs => extractInline o.inline_args kwargs

/-- `StubObject` (src/factory/base.py, lines 886-890): a generic container
whose attributes are exactly the keyword arguments it was built from. -/
structure StubObject where
  fields : Kwargs
deriving DecidableEq, Repr

/-- What `FactoryOptions.instantiate` (lines 470-479) invokes for each
strategy: `_build(model, *args, **kwargs)`, `_create(model, *args,
**kwargs)`, or `StubObject(**kwargs)` — the stub branch passes no
positional arguments at all. -/
inductive InstanceResult
  | built (args : List AttrVal) (kwargs : Kwargs)
  | created (args : List AttrVal) (kwargs : Kwargs)
  | stubbed (s : StubObject)
deriving DecidableEq, Repr

/-- `FactoryOptions.instantiate` (lines 470-479). -/
def instantiate (strategy : Strategy) (args : List AttrVal)
    (kwargs : Kwargs) : InstanceResult :=
  match strategy with
  | .build => .built args kwargs
  | .create => .created args kwargs
  | .stub => .stubbed ⟨kwargs⟩

theorem alookup_removeKey_self (k : String) (d : Kwargs) :
    alookup k (removeKey k d) = none := by
  induction d with
  | nil => rfl
  | cons p rest ih =>
    by_cases hp : p.1 = k
    · rw [removeKey, if_pos hp]
      exact ih
    · rw [removeKey, if_neg hp, alookup, if_neg hp]
      exact ih

theorem alookup_removeKey_ne {k' k : String} (d : Kwargs) (h : k' ≠ k) :
    alookup k' (removeKey k d) = alookup k' d := by
  induction d with
  | nil => rfl
  | cons p rest ih =>
    by_cases hp : p.1 = k
    · rw [removeKey, if_pos hp, alookup,
        if_neg (fun hh : p.1 = k' => h (hh ▸ hp ▸ rfl))]
      exact ih
    · rw [removeKey, if_neg hp, alookup, alookup]
      by_cases hp' : p.1 = k'
      · rw [if_pos hp', if_pos hp']
      · rw [if_neg hp', if_neg hp']
        exact ih

theorem alookup_dictSet_self (k : String) (v : AttrVal) (d : Kwargs) :
    alookup k (dictSet k v d) = some v := by
  induction d with
  | nil => simp [dictSet, alookup]
  | cons p rest ih =>
    by_cases hp : p.1 = k
    · rw [dictSet, if_pos hp, alookup, if_pos rfl]
    · rw [dictSet, if_neg hp, alookup, if_neg hp]
      exact ih

theorem alookup_dictSet_ne {k' k : String} (v : AttrVal) (d : Kwargs)
    (h : k' ≠ k) : alookup k' (dictSet k v d) = alookup k' d := by
  induction d with
  | nil => simp [dictSet, alookup, Ne.symm h]
  | cons p rest ih =>
    by_cases hp : p.1 = k
    · have hp' : ¬ p.1 = k' := fun hh => h (hh ▸ hp ▸ rfl)
      rw [dictSet, if_pos hp, alookup, alookup, if_neg hp',
        if_neg (fun hh : (k, v).1 = k' => h (hh ▸ rfl))]
    · rw [dictSet, if_neg hp, alookup, alookup]
      by_cases hp' : p.1 = k'
      · rw [if_pos hp', if_pos hp']
      · rw [if_neg hp', if_neg hp']
        exact ih

theorem alookup_some_mem_keys {α : Type} {k : String} {v : α}
    {d : List (String × α)} (h : alookup k d = some v) :
    k ∈ d.map Prod.fst := by
  induction d with
  | nil => cases h
  | cons p rest ih =>
    by_cases hp : p.1 = k
    · rw [List.map_cons, hp]
      exact List.mem_cons_self k _
    · rw [alookup, if_neg hp] at h
      exact List.mem_cons_of_mem _ (ih h)

theorem alookup_none_of_not_mem_keys {α : Type} {k : String}
    {d : List (String × α)} (h : k ∉ d.map Prod.fst) : alookup k d = none := by
  induction d with
  | nil => rfl
  | cons p rest ih =>
    rw [List.map_cons] at h
    rw [alookup, if_neg (fun hp : p.1 = k => h (hp ▸ List.mem_cons_self _ _))]
    exact ih (fun hmem => h (List.mem_cons_of_mem _ hmem))

theorem alookup_dropHidden_none {k : String} {ex ps : List String}
    {d : Kwargs} (h : alookup k d = none) :
    alookup k (dropHidden ex ps d) = none := by
  induction d with
  | nil => rfl
  | cons p rest ih =>
    by_cases hp : p.1 = k
    · rw [alookup, if_pos hp] at h
      cases h
    · rw [alookup, if_neg hp] at h
      by_cases hcond : p.1 ∈ ex ∨ p.1 ∈ ps ∨ p.2 = AttrVal.SKIP
      · rw [dropHidden, if_pos hcond]
        exact ih h
      · rw [dropHidden, if_neg hcond, alookup, if_neg hp]
        exact ih h

theorem alookup_dropHidden_hidden {k : String} {ex ps : List String}
    (d : Kwargs) (h : k ∈ ex ∨ k ∈ ps) :
    alookup k (dropHidden ex ps d) = none := by
  induction d with
  | nil => rfl
  | cons p rest ih =>
    by_cases hcond : p.1 ∈ ex ∨ p.1 ∈ ps ∨ p.2 = AttrVal.SKIP
    · rw [dropHidden, if_pos hcond]
      exact ih
    · rw [dropHidden, if_neg hcond, alookup]
      by_cases hp : p.1 = k
      · exfalso
        apply hcond
        rcases h with h | h
        · exact Or.inl (hp ▸ h)
        · exact Or.inr (Or.inl (hp ▸ h))
      · rw [if_neg hp]
        exact ih

theorem alookup_dropHidden_kept {k : String} {v : AttrVal}
    {ex ps : List String} {d : Kwargs} (h : alookup k d = some v)
    (hkeep : ¬ (k ∈ ex ∨ k ∈ ps ∨ v = AttrVal.SKIP)) :
    alookup k (dropHidden ex ps d) = some v := by
  induction d with
  | nil => cases h
  | cons p rest ih =>
    by_cases hp : p.1 = k
    · rw [alookup, if_pos hp] at h
      injection h with h
      have hcond : ¬ (p.1 ∈ ex ∨ p.1 ∈ ps ∨ p.2 = AttrVal.SKIP) := by
        rw [hp, h]
        exact hkeep
      rw [dropHidden, if_neg hcond, alookup, if_pos hp, h]
    · rw [alookup, if_neg hp] at h
      by_cases hcond : p.1 ∈ ex ∨ p.1 ∈ ps ∨ p.2 = AttrVal.SKIP
      · rw [dropHidden, if_pos hcond]
        exact ih h
      · rw [dropHidden, if_neg hcond, alookup, if_neg hp]
        exact ih h

theorem alookup_dropHidden_dropped {k : String} {v : AttrVal}
    {ex ps : List String} {d : Kwargs} (hnodup : (d.map Prod.fst).Nodup)
    (h : alookup k d = some v) (hdrop : k ∈ ex ∨ k ∈ ps ∨ v = AttrVal.SKIP) :
    alookup k (dropHidden ex ps d) = none := by
  induction d with
  | nil => cases h
  | cons p rest ih =>
    have hkeys := List.nodup_cons.mp hnodup
    by_cases hp : p.1 = k
    · rw [alookup, if_pos hp] at h
      injection h with h
      have hcond : p.1 ∈ ex ∨ p.1 ∈ ps ∨ p.2 = AttrVal.SKIP := by
        rw [hp, h]
        exact hdrop
      rw [dropHidden, if_pos hcond]
      apply alookup_dropHidden_none
      apply alookup_none_of_not_mem_keys
      rw [← hp]
      exact hkeys.1
    · rw [alookup, if_neg hp] at h
      by_cases hcond : p.1 ∈ ex ∨ p.1 ∈ ps ∨ p.2 = AttrVal.SKIP
      · rw [dropHidden, if_pos hcond]
        exact ih hkeys.2 h
      · rw [dropHidden, if_neg hcond, alookup, if_neg hp]
        exact ih hkeys.2 h

theorem applyRenames_untouched {k : String} :
    ∀ (rs : List (String × String)) {d d' : Kwargs},
    k ∉ rs.map Prod.fst → k ∉ rs.map Prod.snd →
    applyRenames rs d = some d' → alookup k d' = alookup k d := by
  intro rs
  induction rs with
  | nil =>
    intro d d' _ _ h
    injection h with h
    rw [h]
  | cons r rest ih =>
    intro d d' hdom hcod h
    have hk1 : k ≠ r.1 := by
      intro hh
      exact hdom (hh ▸ List.mem_map_of_mem Prod.fst (List.mem_cons_self r rest))
    have hk2 : k ≠ r.2 := by
      intro hh
      exact hcod (hh ▸ List.mem_map_of_mem Prod.snd (List.mem_cons_self r rest))
    unfold applyRenames at h
    cases hpop : dictPop r.1 d with
    | none => rw [hpop] at h; cases h
    | some pv =>
      rw [hpop] at h
      unfold dictPop at hpop
      cases hl : alookup r.1 d with
      | none => rw [hl] at hpop; cases hpop
      | some v0 =>
        rw [hl] at hpop
        injection hpop with hpop
        have hrec := ih
          (fun hmem => hdom (List.mem_map.mp hmem |>.elim
            (fun q hq => List.mem_map.mpr ⟨q, List.mem_cons_of_mem r hq.1, hq.2⟩)))
          (fun hmem => hcod (List.mem_map.mp hmem |>.elim
            (fun q hq => List.mem_map.mpr ⟨q, List.mem_cons_of_mem r hq.1, hq.2⟩)))
          (hpop ▸ h)
        rw [hrec, alookup_dictSet_ne _ _ hk2, alookup_removeKey_ne _ hk1]

theorem removeKey_preserves_none {k j : String} {d : Kwargs}
    (h : alookup k d = none) : alookup k (removeKey j d) = none := by
  by_cases hkj : k = j
  · rw [hkj]
    exact alookup_removeKey_self j d
  · rw [alookup_removeKey_ne d hkj]
    exact h

theorem extractInline_preserves_none {k : String} :
    ∀ (names : List String) {d : Kwargs} {vs : List AttrVal} {d' : Kwargs},
    extractInline names d = some (vs, d') → alookup k d = none →
    alookup k d' = none := by
  intro names
  induction names with
  | nil =>
    intro d vs d' h hk
    simp only [extractInline, Option.some.injEq, Prod.mk.injEq] at h
    rw [← h.2]
    exact hk
  | cons n rest ih =>
    intro d vs d' h hk
    rw [extractInline] at h
    cases hpop : dictPop n d with
    | none => simp only [hpop] at h; cases h
    | some pv =>
      simp only [hpop] at h
      cases hrec : extractInline rest pv.2 with
      | none => simp only [hrec] at h; cases h
      | some vd =>
        simp only [hrec, Option.some.injEq, Prod.mk.injEq] at h
        unfold dictPop at hpop
        cases hl : alookup n d with
        | none => simp only [hl] at hpop; cases hpop
        | some v0 =>
          simp only [hl, Option.some.injEq] at hpop
          have hd' : alookup k vd.2 = none := by
            apply ih hrec
            rw [← hpop]
            exact removeKey_preserves_none hk
          rw [← h.2]
          exact hd'

theorem extractInline_absent {k : String} :
    ∀ (names : List String) {d : Kwargs} {vs : List AttrVal} {d' : Kwargs},
    extractInline names d = some (vs, d') → k ∈ names →
    alookup k d' = none := by
  intro names
  induction names with
  | nil =>
    intro d vs d' _ hk
    cases hk
  | cons n rest ih =>
    intro d vs d' h hk
    rw [extractInline] at h
    cases hpop : dictPop n d with
    | none => simp only [hpop] at h; cases h
    | some pv =>
      simp only [hpop] at h
      cases hrec : extractInline rest pv.2 with
      | none => simp only [hrec] at h; cases h
      | some vd =>
        simp only [hrec, Option.some.injEq, Prod.mk.injEq] at h
        unfold dictPop at hpop
        cases hl : alookup n d with
        | none => simp only [hl] at hpop; cases hpop
        | some v0 =>
          simp only [hl, Option.some.injEq] at hpop
          rcases List.mem_cons.mp hk with rfl | hk'
          · have hnone : alookup k pv.2 = none := by
              rw [← hpop]
              exact alookup_removeKey_self k d
            have hres := extractInline_preserves_none rest hrec hnone
            rw [← h.2]
            exact hres
          · rw [← h.2]
            exact ih hrec hk'

theorem extractInline_spec :
    ∀ (names : List String) {d : Kwargs} {vs : List AttrVal} {d' : Kwargs},
    names.Nodup → extractInline names d = some (vs, d') →
    vs = names.map (fun n => (alookup n d).getD .SKIP) ∧
    (∀ n ∈ names, (alookup n d).isSome = true) ∧
    (∀ n ∈ names, alookup n d' = none) ∧
    (∀ n, n ∉ names → alookup n d' = alookup n d) := by
  intro names
  induction names with
  | nil =>
    intro d vs d' _ h
    simp only [extractInline, Option.some.injEq, Prod.mk.injEq] at h
    refine ⟨h.1.symm, ?_, ?_, ?_⟩
    · intro n hn
      cases hn
    · intro n hn
      cases hn
    · intro n _
      rw [← h.2]
  | cons n rest ih =>
    intro d vs d' hnodup h
    have hnrest : n ∉ rest := (List.nodup_cons.mp hnodup).1
    have hrestnodup : rest.Nodup := (List.nodup_cons.mp hnodup).2
    rw [extractInline] at h
    cases hpop : dictPop n d with
    | none => simp only [hpop] at h; cases h
    | some pv =>
      simp only [hpop] at h
      cases hrec : extractInline rest pv.2 with
      | none => simp only [hrec] at h; cases h
      | some vd =>
        simp only [hrec, Option.some.injEq, Prod.mk.injEq] at h
        unfold dictPop at hpop
        cases hl : alookup n d with
        | none => simp only [hl] at hpop; cases hpop
        | some v0 =>
          simp only [hl, Option.some.injEq] at hpop
          obtain ⟨hspec1, hspec2, hspec3, hspec4⟩ := ih hrestnodup hrec
          have hlook1 : ∀ n' ∈ rest, alookup n' pv.2 = alookup n' d := by
            intro n' hn'
            rw [← hpop]
            exact alookup_removeKey_ne d (fun hh => hnrest (hh ▸ hn'))
          refine ⟨?_, ?_, ?_, ?_⟩
          · rw [← h.1, List.map_cons, hl]
            have hv : pv.1 = v0 := by rw [← hpop]
            rw [hv]
            have htail : vd.1 = rest.map (fun n' => (alookup n' d).getD .SKIP) := by
              rw [hspec1]
              exact List.map_congr_left (fun n' hn' => by rw [hlook1 n' hn'])
            rw [htail]
            simp
          · intro n' hn'
            rcases List.mem_cons.mp hn' with rfl | hn''
            · rw [hl]; rfl
            · rw [← hlook1 n' hn'']
              exact hspec2 n' hn''
          · intro n' hn'
            rcases List.mem_cons.mp hn' with rfl | hn''
            · rw [← h.2]
              apply hspec4 n' hnrest |>.trans
              rw [← hpop]
              exact alookup_removeKey_self n' d
            · rw [← h.2]
              exact hspec3 n' hn''
          · intro n' hn'
            have hn1 : n' ≠ n := fun hh => hn' (hh ▸ List.mem_cons_self n rest)
            have hn2 : n' ∉ rest := fun hh => hn' (List.mem_cons_of_mem n hh)
            rw [← h.2, hspec4 n' hn2, ← hpop]
            exact alookup_removeKey_ne d hn1

/-- C8: `prepare_arguments` is exactly the four-stage pipeline in order —
the `_adjust_kwargs` hook first; then removal of every entry whose name is
excluded or collides with a Parameter and of every entry holding the
`SKIP` sentinel; then the rename map; then extraction of the
inline-positional names, in declared order, into the positional tuple —
and every remaining entry appears unchanged in the returned keyword
mapping. -/
theorem prepare_arguments_pipeline (adjust_kwargs : Kwargs → Kwargs)
    (o : PrepareOpts) (attributes : Kwargs) (args : List AttrVal)
    (kwargs : Kwargs)
    (hkeys : ((adjust_kwargs attributes).map Prod.fst).Nodup)
    (hinline : o.inline_args.Nodup)
    (h : prepare_arguments adjust_kwargs o attributes = some (args, kwargs)) :
    ∃ kw3, applyRenames o.rename
        (dropHidden o.exclude o.parameters (adjust_kwargs attributes)) =
      some kw3 ∧
    args = o.inline_args.map (fun n => (alookup n kw3).getD .SKIP) ∧
    (∀ n ∈ o.inline_args, (alookup n kw3).isSome = true) ∧
    (∀ k ∈ o.inline_args, alookup k kwargs = none) ∧
    (∀ k, k ∉ o.inline_args → alookup k kwargs = alookup k kw3) ∧
    (∀ k, k ∉ o.rename.map Prod.fst → k ∉ o.rename.map Prod.snd →
      alookup k kw3 =
        alookup k (dropHidden o.exclude o.parameters (adjust_kwargs attributes))) ∧
    (∀ k, k ∈ o.exclude ∨ k ∈ o.parameters →
      alookup k (dropHidden o.exclude o.parameters (adjust_kwargs attributes)) =
        none) ∧
    (∀ k v, alookup k (adjust_kwargs attributes) = some v →
      alookup k (dropHidden o.exclude o.parameters (adjust_kwargs attributes)) =
        (if k ∈ o.exclude ∨ k ∈ o.parameters ∨ v = AttrVal.SKIP then none
          else some v)) := by
  unfold prepare_arguments at h
  cases happ : applyRenames o.rename
      (dropHidden o.exclude o.parameters (adjust_kwargs attributes)) with
  | none => simp only [happ] at h; cases h
  | some kw3 =>
    simp only [happ] at h
    obtain ⟨hargs, hsome, hnone, hrest⟩ := extractInline_spec o.inline_args hinline h
    refine ⟨kw3, rfl, hargs, hsome, hnone, hrest, ?_, ?_, ?_⟩
    · intro k hdom hcod
      exact applyRenames_untouched o.rename hdom hcod happ
    · intro k hk
      exact alookup_dropHidden_hidden _ hk
    · intro k v hv
      by_cases hdrop : k ∈ o.exclude ∨ k ∈ o.parameters ∨ v = AttrVal.SKIP
      · rw [if_pos hdrop]
        exact alookup_dropHidden_dropped hkeys hv hdrop
      · rw [if_neg hdrop]
        exact alookup_dropHidden_kept hv hdrop

/-- Witness for C8's theorem on a concrete resolved attribute mapping. -/
theorem prepare_arguments_pipeline_witness :
    ∃ kw3, applyRenames [("declared", "renamed")]
        (dropHidden ["secret"] ["trait"]
          (id [("secret", .py (.pyint 1)), ("trait", .py (.pybool true)),
            ("declared", .py (.str "x")), ("first", .py (.pyint 10)),
            ("second", .py (.pyint 20)), ("keep", .py (.str "k")),
            ("gone", AttrVal.SKIP)])) = some kw3 ∧
    [AttrVal.py (.pyint 10), AttrVal.py (.pyint 20)] =
      ["first", "second"].map (fun n => (alookup n kw3).getD .SKIP) ∧
    (∀ n ∈ ["first", "second"], (alookup n kw3).isSome = true) ∧
    (∀ k ∈ ["first", "second"],
      alookup k [("keep", AttrVal.py (.str "k")),
        ("renamed", AttrVal.py (.str "x"))] = none) ∧
    (∀ k, k ∉ ["first", "second"] →
      alookup k [("keep", AttrVal.py (.str "k")),
        ("renamed", AttrVal.py (.str "x"))] = alookup k kw3) ∧
    (∀ k, k ∉ [("declared", "renamed")].map Prod.fst →
      k ∉ [("declared", "renamed")].map Prod.snd →
      alookup k kw3 =
        alookup k (dropHidden ["secret"] ["trait"]
          (id [("secret", .py (.pyint 1)), ("trait", .py (.pybool true)),
            ("declared", .py (.str "x")), ("first", .py (.pyint 10)),
            ("second", .py (.pyint 20)), ("keep", .py (.str "k")),
            ("gone", AttrVal.SKIP)]))) ∧
    (∀ k, k ∈ ["secret"] ∨ k ∈ ["trait"] →
      alookup k (dropHidden ["secret"] ["trait"]
        (id [("secret", .py (.pyint 1)), ("trait", .py (.pybool true)),
          ("declared", .py (.str "x")), ("first", .py (.pyint 10)),
          ("second", .py (.pyint 20)), ("keep", .py (.str "k")),
          ("gone", AttrVal.SKIP)])) = none) ∧
    (∀ k v, alookup k (id [("secret", .py (.pyint 1)),
        ("trait", .py (.pybool true)), ("declared", .py (.str "x")),
        ("first", .py (.pyint 10)), ("second", .py (.pyint 20)),
        ("keep", .py (.str "k")), ("gone", AttrVal.SKIP)]) = some v →
      alookup k (dropHidden ["secret"] ["trait"]
        (id [("secret", .py (.pyint 1)), ("trait", .py (.pybool true)),
          ("declared", .py (.str "x")), ("first", .py (.pyint 10)),
          ("second", .py (.pyint 20)), ("keep", .py (.str "k")),
          ("gone", AttrVal.SKIP)])) =
        (if k ∈ ["secret"] ∨ k ∈ ["trait"] ∨ v = AttrVal.SKIP then none
          else some v)) :=
  prepare_arguments_pipeline id
    ⟨["secret"], ["trait"], [("declared", "renamed")], ["first", "second"]⟩
    [("secret", .py (.pyint 1)), ("trait", .py (.pybool true)),
      ("declared", .py (.str "x")), ("first", .py (.pyint 10)),
      ("second", .py (.pyint 20)), ("keep", .py (.str "k")),
      ("gone", AttrVal.SKIP)]
    [AttrVal.py (.pyint 10), AttrVal.py (.pyint 20)]
    [("keep", AttrVal.py (.str "k")), ("renamed", AttrVal.py (.str "x"))]
    (by decide) (by decide) rfl

/-- C10: under the stub strategy, `instantiate` builds the result container
from the keyword mapping only — the positional tuple is discarded entirely
(any positional tuple yields the same stub) — and for a definition with a
non-empty inline-positional list every attribute named in that list was
popped out of the keyword mapping, hence is absent from the stub object's
fields. -/
theorem stub_strategy_discards_positional (adjust_kwargs : Kwargs → Kwargs)
    (o : PrepareOpts) (attributes : Kwargs) (args : List AttrVal)
    (kwargs : Kwargs)
    (h : prepare_arguments adjust_kwargs o attributes = some (args, kwargs))
    (_hne : o.inline_args ≠ []) :
    (∀ args' : List AttrVal,
      instantiate .stub args' kwargs = .stubbed ⟨kwargs⟩) ∧
    (∃ s, instantiate .stub args kwargs = .stubbed s ∧ s.fields = kwargs ∧
      ∀ n ∈ o.inline_args, alookup n s.fields = none) := by
  unfold prepare_arguments at h
  cases happ : applyRenames o.rename
      (dropHidden o.exclude o.parameters (adjust_kwargs attributes)) with
  | none => simp only [happ] at h; cases h
  | some kw3 =>
    simp only [happ] at h
    refine ⟨fun args' => rfl, ⟨kwargs⟩, rfl, rfl, ?_⟩
    intro n hn
    exact extractInline_absent o.inline_args h hn

/-- Witness for C10's theorem on the same concrete mapping. -/
theorem stub_strategy_discards_positional_witness :
    (∀ args' : List AttrVal,
      instantiate .stub args'
          [("keep", AttrVal.py (.str "k")), ("renamed", AttrVal.py (.str "x"))] =
        .stubbed ⟨[("keep", AttrVal.py (.str "k")),
          ("renamed", AttrVal.py (.str "x"))]⟩) ∧
    (∃ s, instantiate .stub [AttrVal.py (.pyint 10), AttrVal.py (.pyint 20)]
        [("keep", AttrVal.py (.str "k")), ("renamed", AttrVal.py (.str "x"))] =
      .stubbed s ∧
      s.fields = [("keep", AttrVal.py (.str "k")),
        ("renamed", AttrVal.py (.str "x"))] ∧
      ∀ n ∈ ["first", "second"], alookup n s.fields = none) :=
  stub_strategy_discards_positional id
    ⟨["secret"], ["trait"], [("declared", "renamed")], ["first", "second"]⟩
    [("secret", .py (.pyint 1)), ("trait", .py (.pybool true)),
      ("declared", .py (.str "x")), ("first", .py (.pyint 10)),
      ("second", .py (.pyint 20)), ("keep", .py (.str "k")),
      ("gone", AttrVal.SKIP)]
    [AttrVal.py (.pyint 10), AttrVal.py (.pyint 20)]
    [("keep", AttrVal.py (.str "k")), ("renamed", AttrVal.py (.str "x"))]
    rfl (by decide)

/-! ### Auto-field candidate computation
(`FactoryOptions.contribute_to_class`, lines 362-386) -/

/-- The two auto-field option sets carried by each ancestor's `_meta`
(`include_auto_fields` / `exclude_auto_fields`, both non-inherited). -/
structure AutoFieldsMeta where
  include_auto_fields : Finset String
  exclude_auto_fields : Finset String
deriving DecidableEq

/-- The candidate field-name set handed to
`introspector.build_declarations` (src/factory/base.py, lines 362-379):
start from the introspector defaults when `default_auto_fields` is on;
then walk the ancestor chain furthest-to-nearest, each ancestor first
adding its `include_auto_fields` and then removing its
`exclude_auto_fields`; then add the definition's own inclusions; finally
remove the union of the already-declared names and the definition's own
exclusions. -/
def candidate_field_names (default_auto_fields : Bool)
    (defaults : Finset String) (ancestors : List AutoFieldsMeta)
    (selfInc selfExc declared : Finset String) : Finset String :=
  let f0 : Finset String := if default_auto_fields then defaults else ∅
  let f1 := ancestors.foldl
    (fun s p => (s ∪ p.include_auto_fields) \ p.exclude_auto_fields) f0
  (f1 ∪ selfInc) \ (declared ∪ selfExc)

/-- The candidate set as the claim words it: the union of the default set
(when enabled) with all inclusions accumulated down the whole ancestor
chain, minus the union of all exclusions accumulated down the chain and
the names already declared. -/
def claimedCandidateFieldNames (default_auto_fields : Bool)
    (defaults : Finset String) (ancestors : List AutoFieldsMeta)
    (selfInc selfExc declared : Finset String) : Finset String :=
  ((if default_auto_fields then defaults else ∅) ∪
    (ancestors.foldl (fun s p => s ∪ p.include_auto_fields) ∅) ∪ selfInc) \
  ((ancestors.foldl (fun s p => s ∪ p.exclude_auto_fields) ∅) ∪ selfExc ∪
    declared)

/-- C7 counterexample: with a far ancestor excluding `x` and a nearer
ancestor including `x`, the code's per-ancestor interleaving re-adds `x`
(the exclusion only cancels inclusions of farther ancestors), while the
claim's accumulated-union formula removes `x`. -/
theorem candidate_field_names_counterexample :
    "x" ∈ candidate_field_names true ∅ [⟨∅, {"x"}⟩, ⟨{"x"}, ∅⟩] ∅ ∅ ∅ ∧
    "x" ∉ claimedCandidateFieldNames true ∅ [⟨∅, {"x"}⟩, ⟨{"x"}, ∅⟩] ∅ ∅ ∅ := by
  constructor
  · decide
  · decide

theorem mem_foldl_incexc (x : String) :
    ∀ (l : List AutoFieldsMeta) (f0 : Finset String),
    (x ∈ l.foldl
      (fun s p => (s ∪ p.include_auto_fields) \ p.exclude_auto_fields) f0) ↔
      ((x ∈ f0 ∧ ∀ p ∈ l, x ∉ p.exclude_auto_fields) ∨
       (∃ l1 p0 l2, l = l1 ++ p0 :: l2 ∧ x ∈ p0.include_auto_fields ∧
         x ∉ p0.exclude_auto_fields ∧
         ∀ q ∈ l2, x ∉ q.exclude_auto_fields)) := by
  intro l
  induction l with
  | nil =>
    intro f0
    constructor
    · intro h
      exact Or.inl ⟨h, fun p hp => absurd hp (List.not_mem_nil p)⟩
    · rintro (⟨h, _⟩ | ⟨l1, p0, l2, hsplit, _⟩)
      · exact h
      · exact absurd hsplit (by cases l1 <;> simp)
  | cons p l ih =>
    intro f0
    rw [List.foldl_cons,
      ih ((f0 ∪ p.include_auto_fields) \ p.exclude_auto_fields)]
    constructor
    · rintro (⟨hf0, hall⟩ | ⟨l1, p0, l2, hsplit, hinc, hexc, hall⟩)
      · rw [Finset.mem_sdiff, Finset.mem_union] at hf0
        obtain ⟨hor, hnexc⟩ := hf0
        cases hor with
        | inl h =>
          refine Or.inl ⟨h, fun q hq => ?_⟩
          rcases List.mem_cons.mp hq with rfl | hq'
          · exact hnexc
          · exact hall q hq'
        | inr h => exact Or.inr ⟨[], p, l, rfl, h, hnexc, hall⟩
      · exact Or.inr ⟨p :: l1, p0, l2, by rw [hsplit, List.cons_append],
          hinc, hexc, hall⟩
    · rintro (⟨hf0, hall⟩ | ⟨l1, p0, l2, hsplit, hinc, hexc, hall⟩)
      · left
        refine ⟨?_, fun q hq => hall q (List.mem_cons_of_mem p hq)⟩
        rw [Finset.mem_sdiff, Finset.mem_union]
        exact ⟨Or.inl hf0, hall p (List.mem_cons_self p l)⟩
      · cases l1 with
        | nil =>
          simp only [List.nil_append] at hsplit
          injection hsplit with h1 h2
          subst h1
          subst h2
          left
          refine ⟨?_, hall⟩
          rw [Finset.mem_sdiff, Finset.mem_union]
          exact ⟨Or.inr hinc, hexc⟩
        | cons a l1' =>
          simp only [List.cons_append] at hsplit
          injection hsplit with h1 h2
          subst h2
          exact Or.inr ⟨l1', p0, l2, rfl, hinc, hexc, hall⟩

/-- C7 (amended): a name is in the candidate set passed to the
introspector iff it is not among the definition's own exclusions or the
already-declared names, and either (a) it is in the definition's own
inclusions, or (b) it is in the enabled default set and no ancestor
excludes it, or (c) some ancestor includes it and neither that ancestor
nor any nearer ancestor excludes it — i.e. the chain is scanned
furthest-to-nearest, each ancestor adding its inclusions before removing
its exclusions, so an ancestor's exclusion only cancels inclusions from
strictly farther ancestors and is not accumulated into the final
subtraction. -/
theorem candidate_field_names_mem (x : String) (default_auto_fields : Bool)
    (defaults : Finset String) (ancestors : List AutoFieldsMeta)
    (selfInc selfExc declared : Finset String) :
    x ∈ candidate_field_names default_auto_fields defaults ancestors
        selfInc selfExc declared ↔
      ((x ∈ selfInc ∨
        (default_auto_fields = true ∧ x ∈ defaults ∧
          ∀ p ∈ ancestors, x ∉ p.exclude_auto_fields) ∨
        (∃ l1 p0 l2, ancestors = l1 ++ p0 :: l2 ∧
          x ∈ p0.include_auto_fields ∧ x ∉ p0.exclude_auto_fields ∧
          ∀ q ∈ l2, x ∉ q.exclude_auto_fields)) ∧
       x ∉ declared ∧ x ∉ selfExc) := by
  unfold candidate_field_names
  rw [Finset.mem_sdiff, Finset.mem_union, Finset.mem_union,
    mem_foldl_incexc x ancestors]
  cases default_auto_fields with
  | false =>
    simp only [if_false, Finset.not_mem_empty, false_and, Bool.false_eq_true,
      false_or]
    generalize (∃ l1 p0 l2, ancestors = l1 ++ p0 :: l2 ∧
      x ∈ p0.include_auto_fields ∧ x ∉ p0.exclude_auto_fields ∧
      ∀ q ∈ l2, x ∉ q.exclude_auto_fields) = B
    tauto
  | true =>
    simp only [if_true, true_and]
    generalize (∃ l1 p0 l2, ancestors = l1 ++ p0 :: l2 ∧
      x ∈ p0.include_auto_fields ∧ x ∉ p0.exclude_auto_fields ∧
      ∀ q ∈ l2, x ∉ q.exclude_auto_fields) = B
    tauto

end FactoryBoy
